import Mathlib

/-!
Shallow embedding of the SpMV architecture performance model of
src/include/Spark/SimpleSpmv.hpp (C++ namespace spark::spmv).

Modelling conventions:
- C++ `int` / `int32_t` values are modelled as `Int` (no overflow is modelled;
  all claims are about small values).
- The `rowDeltas` pointer-plus-size pair `(int32_t* v, int size)` is modelled
  as a `List Int` whose length is `size`; `v[i]` is the i-th list element.
- The inner `do ... while (toread > 0)` loops of the cycleCount policies do
  not terminate in C++ when `inputWidth <= 0` and a positive remainder is
  left, so they are modelled with fuel, returning `Option Nat`; `none` marks
  a run that exhausts the fuel.  The fuel `toread.toNat + 1` is exact for
  `inputWidth >= 1`: the loop then performs at most `toread` iterations, so
  a `some` result is exactly the C++ cycle count.
- Cycle counters are `Nat` (they start at 0 and are only incremented).
-/

namespace Spmv

/-- Nonzero count of row `i` derived from the cumulative row-pointer array
`v`, with the value `prev` standing for the entry before the first one:
`v[i] - (i > 0 ? v[i-1] : prev)`.  The top-level calls use `prev = 0`,
matching `v[i] - (i > 0 ? v[i - 1] : 0)` in the source. -/
def deltaFrom (prev : Int) (v : List Int) (i : Nat) : Int :=
  v.getD i 0 - (if i = 0 then prev else v.getD (i - 1) 0)

/-- Nonzero count of row `i`: `rowDeltas[i] - rowDeltas[i-1]` with
`rowDeltas[-1] = 0`. -/
def deltaOf (v : List Int) (i : Nat) : Int := deltaFrom 0 v i

/-- Inner `do { toread -= std::min(toread, inputWidth); cycles++; } while
(toread > 0);` loop of FstSpmvArchitecture::cycleCount
(src/include/Spark/SimpleSpmv.hpp lines 179-182), counting its iterations. -/
def fstDrain (inputWidth : Int) : Nat → Int → Option Nat
  | 0, _ => none
  | fuel + 1, toread =>
    let t := toread - min toread inputWidth
    if 0 < t then (fstDrain inputWidth fuel t).map (· + 1) else some 1

/-- Row loop of FstSpmvArchitecture::cycleCount: `prev` is the previous
cumulative row pointer (`0` before the first row). -/
def fstCycleCountAux (inputWidth : Int) (prev : Int) : List Int → Option Nat
  | [] => some 0
  | x :: xs =>
    match fstDrain inputWidth ((x - prev).toNat + 1) (x - prev),
          fstCycleCountAux inputWidth x xs with
    | some c, some r => some (c + r)
    | _, _ => none

/-- FstSpmvArchitecture::cycleCount (src/include/Spark/SimpleSpmv.hpp lines
175-185). -/
def FstSpmvArchitecture.cycleCount (v : List Int) (inputWidth : Int) :
    Option Nat :=
  fstCycleCountAux inputWidth 0 v

/-- Modelled from the spec: the body of SimpleSpmvArchitecture::cycleCount is
only declared in src/include/Spark/SimpleSpmv.hpp (line 53); its definition
lives in a translation unit that is not under src/.  Spec section 4.3
(Simple): for each row, repeatedly subtract up to `inputWidth` from its
remaining nonzero count, one cycle per subtraction, until the row's remainder
reaches zero; the do-while drains at least once.  This is the same loop shape
as Fst (spec section 4.3, Fst: identical cycle-accounting formula). -/
def simpleDrain (inputWidth : Int) : Nat → Int → Option Nat
  | 0, _ => none
  | fuel + 1, toread =>
    let t := toread - min toread inputWidth
    if 0 < t then (simpleDrain inputWidth fuel t).map (· + 1) else some 1

/-- Modelled from the spec: row loop of SimpleSpmvArchitecture::cycleCount
(see simpleDrain). -/
def simpleCycleCountAux (inputWidth : Int) (prev : Int) :
    List Int → Option Nat
  | [] => some 0
  | x :: xs =>
    match simpleDrain inputWidth ((x - prev).toNat + 1) (x - prev),
          simpleCycleCountAux inputWidth x xs with
    | some c, some r => some (c + r)
    | _, _ => none

/-- Modelled from the spec: SimpleSpmvArchitecture::cycleCount (declared at
src/include/Spark/SimpleSpmv.hpp line 53, body not under src/). -/
def SimpleSpmvArchitecture.cycleCount (v : List Int) (inputWidth : Int) :
    Option Nat :=
  simpleCycleCountAux inputWidth 0 v

/-- Inner do-while of SkipEmptyRowsArchitecture::cycleCount
(src/include/Spark/SimpleSpmv.hpp lines 215-221):
`canread = min(inputWidth - crtPos, toread); crtPos += canread;
crtPos %= inputWidth; cycles++; toread -= canread;` repeated while
`toread > 0`.  C++ `%` on int is truncated remainder, i.e. `Int.tmod`.
Returns (iteration count, final crtPos). -/
def skipDrain (inputWidth : Int) : Nat → Int → Int → Option (Nat × Int)
  | 0, _, _ => none
  | fuel + 1, crtPos, toread =>
    let canread := min (inputWidth - crtPos) toread
    let crtPos2 := Int.tmod (crtPos + canread) inputWidth
    let toread2 := toread - canread
    if 0 < toread2 then
      (skipDrain inputWidth fuel crtPos2 toread2).map (fun p => (p.1 + 1, p.2))
    else some (1, crtPos2)

/-- Row loop of SkipEmptyRowsArchitecture::cycleCount
(src/include/Spark/SimpleSpmv.hpp lines 203-224).  State: `prev` is the
previous cumulative row pointer (0 before the first row), `crtPos` the
datapath lane cursor, `prevtoread` the last stored row nonzero count
(initially -1).  An empty row whose predecessor row was also empty is
skipped (`continue`); any other empty row first charges one extra cycle
(`if (toread == 0) cycles++`), and every non-skipped row then runs the
drain loop at least once. -/
def skipCycleCountAux (inputWidth : Int) :
    List Int → Int → Int → Int → Option Nat
  | [], _, _, _ => some 0
  | x :: xs, prev, crtPos, prevtoread =>
    let toread := x - prev
    if toread = 0 ∧ prevtoread = 0 then
      skipCycleCountAux inputWidth xs x crtPos prevtoread
    else
      match skipDrain inputWidth (toread.toNat + 1) crtPos toread with
      | none => none
      | some (c, crtPos2) =>
        (skipCycleCountAux inputWidth xs x crtPos2 toread).map
          (fun r => (if toread = 0 then 1 else 0) + c + r)

/-- SkipEmptyRowsArchitecture::cycleCount (src/include/Spark/SimpleSpmv.hpp
lines 203-224): `cycles = 0; crtPos = 0; prevtoread = -1` initially. -/
def SkipEmptyRowsArchitecture.cycleCount (v : List Int) (inputWidth : Int) :
    Option Nat :=
  skipCycleCountAux inputWidth v 0 0 (-1)

/-- Instrumented variant of skipCycleCountAux that records the cycles charged
to each row individually instead of their sum.  A skipped row (empty row
whose predecessor row was empty) records 0; any other row records its extra
empty-row cycle plus its drain-loop cycles.  skipChargesAux relates to
skipCycleCountAux by summation (lemma skipCycleCountAux_eq_sum below). -/
def skipChargesAux (inputWidth : Int) :
    List Int → Int → Int → Int → Option (List Nat)
  | [], _, _, _ => some []
  | x :: xs, prev, crtPos, prevtoread =>
    let toread := x - prev
    if toread = 0 ∧ prevtoread = 0 then
      (skipChargesAux inputWidth xs x crtPos prevtoread).map (fun cs => 0 :: cs)
    else
      match skipDrain inputWidth (toread.toNat + 1) crtPos toread with
      | none => none
      | some (c, crtPos2) =>
        (skipChargesAux inputWidth xs x crtPos2 toread).map
          (fun cs => ((if toread = 0 then 1 else 0) + c) :: cs)

/-- Per-row cycle charges of SkipEmptyRowsArchitecture::cycleCount, from the
initial state `crtPos = 0`, `prevtoread = -1`. -/
def skipCharges (v : List Int) (inputWidth : Int) : Option (List Nat) :=
  skipChargesAux inputWidth v 0 0 (-1)

/-- BlockingResult (src/include/Spark/SimpleSpmv.hpp lines 25-39), integer
fields only.  The packed `(value, indptr)` stream `m_indptr_values` carries
double-precision payload that no modelled operation reads, so it is omitted;
`m_colptr` is kept as a list. -/
structure BlockingResult where
  nPartitions : Int
  n : Int
  paddingCycles : Int
  totalCycles : Int
  vector_load_cycles : Int
  outSize : Int
  m_colptr : List Int := []
deriving DecidableEq, Repr

/-- Modelled from the spec: struct ResourceUsage is defined in
Spark/Spmv.hpp, which is not under src/.  The only visible use,
`ResourceUsage{-1, -1, -1, brams}` (src/include/Spark/SimpleSpmv.hpp line
85), fixes four integer fields with the BRAM count last; the spec (claim
C10 wording) calls the first three LUT, FF and DSP counts. -/
structure ResourceUsage where
  luts : Int
  ffs : Int
  dsps : Int
  brams : Int
deriving DecidableEq, Repr

/-- State of a SimpleSpmvArchitecture object
(src/include/Spark/SimpleSpmv.hpp lines 46-116): the three configuration
parameters, the stored matrix (abstracted by its nonzero count, the only
attribute the modelled operations read), and the recorded BlockingResults. -/
structure SimpleSpmvArchitectureState where
  cacheSize : Int
  inputWidth : Int
  numPipes : Int
  matNonZeros : Int
  partitions : List BlockingResult
deriving DecidableEq, Repr

/-- The constructor SimpleSpmvArchitecture(int _cacheSize, int _inputWidth,
int _numPipes) (src/include/Spark/SimpleSpmv.hpp lines 62-65): it stores the
three values unchanged and performs no validation; the matrix member starts
as a default (empty, 0 nonzeros) Eigen sparse matrix and the partitions
vector starts empty. -/
def mkSimpleSpmvArchitecture (cacheSize inputWidth numPipes : Int) :
    SimpleSpmvArchitectureState :=
  { cacheSize := cacheSize
    inputWidth := inputWidth
    numPipes := numPipes
    matNonZeros := 0
    partitions := [] }

/-- Modelled from the spec: the body of SimpleSpmvArchitecture::preprocess is
only declared in src/include/Spark/SimpleSpmv.hpp (line 99); its definition
is not under src/.  Spec section 4.4: preprocess(matrix) runs Partitioner
then Blocker for every partition, storing all BlockingResults (repeated
calls overwrite prior state), and section 3: the configuration triple is
immutable once constructed.  The stored matrix and the produced
BlockingResults are therefore arbitrary here, while the configuration
fields are preserved. -/
def preprocessModel (s : SimpleSpmvArchitectureState) (newMatNonZeros : Int)
    (newPartitions : List BlockingResult) : SimpleSpmvArchitectureState :=
  { s with matNonZeros := newMatNonZeros, partitions := newPartitions }

/-- std::max_element over a list of BlockingResults with the comparator
`a.totalCycles < b.totalCycles` (src/include/Spark/SimpleSpmv.hpp lines
70-73): the first element no later element strictly exceeds; `none` for the
empty list (where C++ would dereference the end iterator). -/
def maxElementByTotalCycles : List BlockingResult → Option BlockingResult
  | [] => none
  | x :: xs =>
    some (xs.foldl
      (fun best a => if best.totalCycles < a.totalCycles then a else best) x)

/-- SimpleSpmvArchitecture::getEstimatedClockCycles
(src/include/Spark/SimpleSpmv.hpp lines 69-75): the totalCycles of the
max_element of the recorded partitions.  The C++ return type is double; the
value returned is the int `res->totalCycles`, modelled exactly as an Int. -/
def getEstimatedClockCycles (s : SimpleSpmvArchitectureState) : Option Int :=
  (maxElementByTotalCycles s.partitions).map BlockingResult.totalCycles

/-- SimpleSpmvArchitecture::getGFlopsCount (src/include/Spark/SimpleSpmv.hpp
lines 77-79): `2 * mat.nonZeros() / 1E9`.  The C++ expression is evaluated
in binary64; it is modelled in exact rational arithmetic (2 * nnz is exact
in binary64 for any realistic nonzero count, 1E9 is exactly representable,
and only the final division can round). -/
def getGFlopsCount (s : SimpleSpmvArchitectureState) : ℚ :=
  2 * (s.matNonZeros : ℚ) / 1000000000

/-- Truncation of a rational toward zero, the behaviour of the C++
double-to-int conversion: the truncating division of the numerator by the
denominator. -/
def ratTrunc (q : ℚ) : Int := Int.tdiv q.num (q.den : Int)

/-- SimpleSpmvArchitecture::getResourceUsage (src/include/Spark/SimpleSpmv.hpp
lines 82-86): `int brams = (double)cacheSize * (double)inputWidth / 512.0 *
2.0; return ResourceUsage{-1, -1, -1, brams};`.  The binary64 arithmetic is
modelled in exact rational arithmetic (exact whenever the product fits in
53 bits; the division by 512 and the doubling are exact binary scalings),
followed by the truncating double-to-int conversion. -/
def getResourceUsage (s : SimpleSpmvArchitectureState) : ResourceUsage :=
  { luts := -1
    ffs := -1
    dsps := -1
    brams := ratTrunc ((s.cacheSize : ℚ) * (s.inputWidth : ℚ) / 512 * 2) }

/-- Modelled from the spec: spark::utils::Range lives in Spark/Utils.hpp,
which is not under src/.  Spec section 2 (RangeSweeper): a deterministic,
restartable enumerator over an integer arithmetic range (start, stop, step).
Its use in src/include/Spark/SimpleSpmv.hpp (lines 122-124 and 143-164)
shows a current value `crt`, pre-increment, `at_start()` and `restart()`.
Advancing steps `crt` by `step` and wraps back to `start` once the value
would pass `stop`; the spec's enumerator sizes (7 values for
Range{1024, 4096, 512}, 12 for Range{8, 100, 8}, 6 for Range{1, 6, 1}) fix
stop as inclusive when hit exactly. -/
structure Range where
  start : Int
  stop : Int
  step : Int
  crt : Int
deriving DecidableEq, Repr

/-- Modelled from the spec: Range pre-increment (see Range). -/
def Range.inc (r : Range) : Range :=
  let c := r.crt + r.step
  if r.stop < c then { r with crt := r.start } else { r with crt := c }

/-- Modelled from the spec: Range::at_start() (see Range). -/
def Range.atStart (r : Range) : Bool := r.crt == r.start

/-- Modelled from the spec: Range::restart() (see Range). -/
def Range.restart (r : Range) : Range := { r with crt := r.start }

/-- A Range with current value at its start, as the member initializers
Range{lo, hi, st} of SimpleSpmvArchitectureSpace build them. -/
def Range.mk0 (lo hi st : Int) : Range :=
  { start := lo, stop := hi, step := st, crt := lo }

/-- State of SimpleSpmvArchitectureSpace (src/include/Spark/SimpleSpmv.hpp
lines 118-168): the three ranges and the `last` flag. -/
structure SpaceState where
  cacheSizeR : Range
  inputWidthR : Range
  numPipesR : Range
  last : Bool
deriving DecidableEq, Repr

/-- The default-constructed space: cacheSize in Range{1024, 4096, 512},
inputWidth in Range{8, 100, 8}, numPipes in Range{1, 6, 1}, last = false
(src/include/Spark/SimpleSpmv.hpp lines 122-126). -/
def initSpace : SpaceState :=
  { cacheSizeR := Range.mk0 1024 4096 512
    inputWidthR := Range.mk0 8 100 8
    numPipesR := Range.mk0 1 6 1
    last := false }

/-- SimpleSpmvArchitectureSpace::restart (src/include/Spark/SimpleSpmv.hpp
lines 143-148): restart all three ranges and clear the last flag. -/
def SpaceState.restart (s : SpaceState) : SpaceState :=
  { cacheSizeR := s.cacheSizeR.restart
    inputWidthR := s.inputWidthR.restart
    numPipesR := s.numPipesR.restart
    last := false }

/-- SimpleSpmvArchitectureSpace::doNext (src/include/Spark/SimpleSpmv.hpp
lines 150-167): if last, signal end of sequence; otherwise construct an
architecture from the current (cacheSize, inputWidth, numPipes), then
advance cacheSize, carrying into inputWidth when it wraps, into numPipes
when that wraps too, and set last when numPipes wraps.  The produced
configuration triple stands for the constructed T(cacheSizeR.crt,
inputWidthR.crt, numPipesR.crt). -/
def doNext (s : SpaceState) : Option ((Int × Int × Int) × SpaceState) :=
  if s.last then none
  else
    let result := (s.cacheSizeR.crt, s.inputWidthR.crt, s.numPipesR.crt)
    let cs := s.cacheSizeR.inc
    if cs.atStart then
      let iw := s.inputWidthR.inc
      if iw.atStart then
        let np := s.numPipesR.inc
        some (result,
          { cacheSizeR := cs, inputWidthR := iw, numPipesR := np
            last := if np.atStart then true else s.last })
      else
        some (result,
          { cacheSizeR := cs, inputWidthR := iw, numPipesR := s.numPipesR
            last := s.last })
    else
      some (result, { s with cacheSizeR := cs })

/-- The stream of configurations produced by successive doNext calls,
bounded by fuel; the stream stops at the first end-of-sequence signal. -/
def enumerate : Nat → SpaceState → List (Int × Int × Int)
  | 0, _ => []
  | fuel + 1, s =>
    match doNext s with
    | none => []
    | some (c, s2) => c :: enumerate fuel s2

/-- The 504 configurations of the default space, written directly as the
cartesian product with cacheSize fastest-varying, then inputWidth, then
numPipes slowest. -/
def expected504 : List (Int × Int × Int) :=
  (List.range 6).flatMap (fun np =>
    (List.range 12).flatMap (fun iw =>
      (List.range 7).map (fun cs =>
        ((1024 + 512 * (cs : Int), 8 + 8 * (iw : Int), 1 + (np : Int))))))

/-! Helper lemmas. -/

theorem deltaFrom_cons_zero (prev x : Int) (xs : List Int) :
    deltaFrom prev (x :: xs) 0 = x - prev := by
  simp [deltaFrom]

theorem deltaFrom_cons_succ (prev x : Int) (xs : List Int) (i : Nat) :
    deltaFrom prev (x :: xs) (i + 1) = deltaFrom x xs i := by
  cases i <;> simp [deltaFrom]

theorem fstDrain_eq_simpleDrain (w : Int) :
    ∀ (fuel : Nat) (t : Int), fstDrain w fuel t = simpleDrain w fuel t
  | 0, _ => rfl
  | fuel + 1, t => by
    simp only [fstDrain, simpleDrain, fstDrain_eq_simpleDrain w fuel]

theorem fstCycleCountAux_eq_simple (w : Int) :
    ∀ (v : List Int) (prev : Int),
      fstCycleCountAux w prev v = simpleCycleCountAux w prev v
  | [], _ => rfl
  | x :: xs, prev => by
    simp only [fstCycleCountAux, simpleCycleCountAux,
      fstDrain_eq_simpleDrain, fstCycleCountAux_eq_simple w xs x]

theorem maxElementFold_mem :
    ∀ (xs : List BlockingResult) (x : BlockingResult),
      xs.foldl
        (fun best a => if best.totalCycles < a.totalCycles then a else best) x
        ∈ x :: xs
  | [], x => by simp
  | y :: ys, x => by
    have ih := maxElementFold_mem ys
      (if x.totalCycles < y.totalCycles then y else x)
    simp only [List.foldl_cons]
    rcases List.mem_cons.mp ih with h | h
    · rw [h]
      split <;> simp
    · simp [h]

theorem maxElementFold_ub :
    ∀ (xs : List BlockingResult) (x a : BlockingResult), a ∈ x :: xs →
      a.totalCycles ≤
        (xs.foldl
          (fun best a => if best.totalCycles < a.totalCycles then a else best)
          x).totalCycles
  | [], x, a, h => by
    simp at h
    exact h ▸ le_refl _
  | y :: ys, x, a, h => by
    simp only [List.foldl_cons]
    have hstep : ∀ b : BlockingResult, b ∈ x :: [y] →
        b.totalCycles ≤
          (if x.totalCycles < y.totalCycles then y else x).totalCycles := by
      intro b hb
      simp at hb
      rcases hb with hb | hb <;> subst hb <;> split <;> omega
    rcases List.mem_cons.mp h with h1 | h1
    · subst h1
      exact le_trans (hstep a (by simp))
        (maxElementFold_ub ys _ _ (by simp))
    rcases List.mem_cons.mp h1 with h2 | h2
    · subst h2
      exact le_trans (hstep a (by simp))
        (maxElementFold_ub ys _ _ (by simp))
    · exact maxElementFold_ub ys _ a (List.mem_cons_of_mem _ h2)

/-! Claim theorems. -/

/-- C5: for every input (rowDeltas, size, inputWidth) the Fst policy's
cycleCount returns the same value as the Simple policy's cycleCount.  (The
Simple body is not under src/ and is modelled from the spec, which states
the formula is identical to Fst.) -/
theorem fst_cycleCount_eq_simple (v : List Int) (w : Int) :
    FstSpmvArchitecture.cycleCount v w = SimpleSpmvArchitecture.cycleCount v w :=
  fstCycleCountAux_eq_simple w v 0

/-- C9: for every cycle-count policy (Simple, Fst, SkipEmptyRows), a call
with size == 0 (an empty rowDeltas block) returns 0 cycles, for every
inputWidth: the per-row loop does not execute. -/
theorem cycleCount_size_zero (w : Int) :
    SimpleSpmvArchitecture.cycleCount [] w = some 0 ∧
    FstSpmvArchitecture.cycleCount [] w = some 0 ∧
    SkipEmptyRowsArchitecture.cycleCount [] w = some 0 :=
  ⟨rfl, rfl, rfl⟩

/-- C6 counterexample: constructing an architecture with non-positive
cacheSize, inputWidth and numPipes does not fail: the constructor
(src/include/Spark/SimpleSpmv.hpp lines 62-65) performs no validation, and
a model object is produced with the values stored verbatim. -/
theorem mkArchitecture_no_validation_counterexample :
    mkSimpleSpmvArchitecture (-1) (-1) (-1) =
      { cacheSize := -1, inputWidth := -1, numPipes := -1
        matNonZeros := 0, partitions := [] } :=
  rfl

/-- C6 (amended): the constructor accepts every (cacheSize, inputWidth,
numPipes) triple, including non-positive values; it raises nothing, stores
the three values unchanged (no clamping) and produces a model object with
an empty matrix and no recorded partitions. -/
theorem mkArchitecture_stores_verbatim (c i n : Int) :
    (mkSimpleSpmvArchitecture c i n).cacheSize = c ∧
    (mkSimpleSpmvArchitecture c i n).inputWidth = i ∧
    (mkSimpleSpmvArchitecture c i n).numPipes = n ∧
    (mkSimpleSpmvArchitecture c i n).matNonZeros = 0 ∧
    (mkSimpleSpmvArchitecture c i n).partitions = [] :=
  ⟨rfl, rfl, rfl, rfl, rfl⟩

/-- C8: for every preprocessed matrix with nnz nonzeros, getGFlopsCount()
returns 2 * nnz / 1e9 (1e9 written as 1000000000; the C++ binary64
division is modelled in exact rational arithmetic). -/
theorem getGFlopsCount_formula (s : SimpleSpmvArchitectureState) (nnz : Int)
    (ps : List BlockingResult) :
    getGFlopsCount (preprocessModel s nnz ps) = 2 * (nnz : ℚ) / 1000000000 :=
  rfl

/-- C10: getResourceUsage() is a pure function of the construction-time
cacheSize and inputWidth only; preprocessing (which replaces the matrix and
the recorded partitions) never changes it, and the LUT, FF and DSP fields
are always -1. -/
theorem getResourceUsage_pure :
    (∀ s1 s2 : SimpleSpmvArchitectureState,
      s1.cacheSize = s2.cacheSize → s1.inputWidth = s2.inputWidth →
      getResourceUsage s1 = getResourceUsage s2) ∧
    (∀ s : SimpleSpmvArchitectureState,
      (getResourceUsage s).luts = -1 ∧ (getResourceUsage s).ffs = -1 ∧
      (getResourceUsage s).dsps = -1) ∧
    (∀ (s : SimpleSpmvArchitectureState) (nnz : Int)
        (ps : List BlockingResult),
      getResourceUsage (preprocessModel s nnz ps) = getResourceUsage s) := by
  refine ⟨fun s1 s2 h1 h2 => ?_, fun s => ⟨rfl, rfl, rfl⟩,
    fun s nnz ps => rfl⟩
  simp only [getResourceUsage, h1, h2]

/-- Witness for C10 at two concrete states sharing cacheSize and inputWidth
but differing in numPipes, matrix and partitions. -/
theorem getResourceUsage_pure_witness :
    getResourceUsage ⟨2048, 48, 1, 0, []⟩ =
      getResourceUsage ⟨2048, 48, 6, 77, [⟨1, 4, 0, 9, 2, 4, []⟩]⟩ :=
  getResourceUsage_pure.1 _ _ rfl rfl

/-- C3: after a preprocess call that recorded at least one BlockingResult,
getEstimatedClockCycles() returns the maximum totalCycles over all recorded
BlockingResults. -/
theorem getEstimatedClockCycles_is_max (s : SimpleSpmvArchitectureState)
    (h : s.partitions ≠ []) :
    ∃ r, getEstimatedClockCycles s = some r ∧
      r ∈ s.partitions.map BlockingResult.totalCycles ∧
      ∀ p ∈ s.partitions, p.totalCycles ≤ r := by
  obtain ⟨x, xs, hp⟩ : ∃ x xs, s.partitions = x :: xs := by
    cases hp : s.partitions with
    | nil => exact absurd hp h
    | cons x xs => exact ⟨x, xs, rfl⟩
  refine ⟨(xs.foldl
      (fun best a => if best.totalCycles < a.totalCycles then a else best)
      x).totalCycles, ?_, ?_, ?_⟩
  · simp [getEstimatedClockCycles, maxElementByTotalCycles, hp]
  · exact hp ▸ List.mem_map_of_mem _ (maxElementFold_mem xs x)
  · intro p hpmem
    exact maxElementFold_ub xs x p (hp ▸ hpmem)

/-- Witness for C3 at a concrete two-partition state: the estimate is the
larger totalCycles. -/
theorem getEstimatedClockCycles_is_max_witness :
    ∃ r, getEstimatedClockCycles
        ⟨2048, 48, 2, 10, [⟨2, 4, 1, 3, 2, 4, []⟩, ⟨2, 4, 1, 7, 2, 4, []⟩]⟩ =
        some r ∧
      r ∈ ([⟨2, 4, 1, 3, 2, 4, []⟩, ⟨2, 4, 1, 7, 2, 4, []⟩] :
          List BlockingResult).map BlockingResult.totalCycles ∧
      ∀ p ∈ ([⟨2, 4, 1, 3, 2, 4, []⟩, ⟨2, 4, 1, 7, 2, 4, []⟩] :
          List BlockingResult), p.totalCycles ≤ r :=
  getEstimatedClockCycles_is_max
    ⟨2048, 48, 2, 10, [⟨2, 4, 1, 3, 2, 4, []⟩, ⟨2, 4, 1, 7, 2, 4, []⟩]⟩
    (by decide)

theorem ratTrunc_eq_floor (q : ℚ) (h : 0 ≤ q) : ratTrunc q = ⌊q⌋ := by
  rw [Rat.floor_def, ratTrunc]
  exact Int.tdiv_eq_ediv (Rat.num_nonneg.mpr h) (Int.natCast_nonneg _)

/-- C7: getResourceUsage() computes the BRAM count as
floor(cacheSize * inputWidth / 512 * 2), an exact integer-arithmetic value
(cacheSize * inputWidth * 2 / 512 in integer division) for non-negative
parameters; in particular, cacheSize = 2048 and inputWidth = 48 give
brams = 384.  (The C++ binary64 arithmetic is modelled as exact rationals;
at the stated input every intermediate binary64 value is exact.) -/
theorem getResourceUsage_brams_formula :
    (∀ s : SimpleSpmvArchitectureState,
      0 ≤ s.cacheSize → 0 ≤ s.inputWidth →
      (getResourceUsage s).brams = s.cacheSize * s.inputWidth * 2 / 512) ∧
    (∀ s : SimpleSpmvArchitectureState,
      s.cacheSize = 2048 → s.inputWidth = 48 →
      (getResourceUsage s).brams = 384) := by
  constructor
  · intro s hc hi
    have hq : (s.cacheSize : ℚ) * (s.inputWidth : ℚ) / 512 * 2 =
        ((s.cacheSize * s.inputWidth * 2 : Int) : ℚ) / ((512 : ℕ) : ℚ) := by
      push_cast
      ring
    have hnn : (0 : ℚ) ≤ ((s.cacheSize * s.inputWidth * 2 : Int) : ℚ) := by
      have h1 : (0 : Int) ≤ s.cacheSize * s.inputWidth * 2 := by positivity
      exact_mod_cast h1
    show ratTrunc ((s.cacheSize : ℚ) * (s.inputWidth : ℚ) / 512 * 2) = _
    rw [hq, ratTrunc_eq_floor _ (by positivity),
      Rat.floor_intCast_div_natCast]
    norm_num
  · intro s hc hi
    have h : (s.cacheSize : ℚ) * (s.inputWidth : ℚ) / 512 * 2 = (384 : ℚ) := by
      rw [hc, hi]
      norm_num
    simp only [getResourceUsage, h]
    decide

/-- Witness for C7 at cacheSize = 2048, inputWidth = 48. -/
theorem getResourceUsage_brams_formula_witness :
    (getResourceUsage ⟨2048, 48, 1, 0, []⟩).brams = 2048 * 48 * 2 / 512 ∧
    (getResourceUsage ⟨2048, 48, 1, 0, []⟩).brams = 384 :=
  ⟨getResourceUsage_brams_formula.1 ⟨2048, 48, 1, 0, []⟩ (by decide) (by decide),
   getResourceUsage_brams_formula.2 ⟨2048, 48, 1, 0, []⟩ rfl rfl⟩

set_option maxRecDepth 8000 in
/-- C4: with the default ranges cacheSize in Range{1024, 4096, 512},
inputWidth in Range{8, 100, 8}, numPipes in Range{1, 6, 1}, successive
next() calls produce exactly the 504 = 7 * 12 * 6 configurations of the
cartesian product, cacheSize fastest-varying, then inputWidth, then
numPipes, before signaling end-of-sequence (fuel 1000 > 504 suffices, so
equality with the 504-element product list shows doNext returned none at
call 505); and after restart() from any cursor state and last flag over the
same bounds, the identical sequence is produced again. -/
theorem architectureSpace_enumeration :
    enumerate 1000 initSpace = expected504 ∧
    expected504.length = 504 ∧
    ∀ (c1 c2 c3 : Int) (b : Bool),
      enumerate 1000 (SpaceState.restart
        ⟨⟨1024, 4096, 512, c1⟩, ⟨8, 100, 8, c2⟩, ⟨1, 6, 1, c3⟩, b⟩) =
        expected504 := by
  have h1 : enumerate 1000 initSpace = expected504 := by decide
  exact ⟨h1, by decide, fun c1 c2 c3 b => h1⟩

theorem simpleDrain_succ (w : Int) (fuel : Nat) (t : Int) :
    simpleDrain w (fuel + 1) t =
      if 0 < t - min t w then
        (simpleDrain w fuel (t - min t w)).map (· + 1)
      else some 1 :=
  rfl

theorem simpleDrain_zero (w : Int) (h : 0 ≤ w) (fuel : Nat) :
    simpleDrain w (fuel + 1) 0 = some 1 := by
  rw [simpleDrain_succ, min_eq_left h]
  norm_num

theorem simpleDrain_pos (w : Int) (hw : 0 < w) :
    ∀ (fuel : Nat) (t : Int), 0 < t → t.toNat ≤ fuel + 1 →
      simpleDrain w (fuel + 1) t = some ((t.toNat + w.toNat - 1) / w.toNat)
  | 0, t, ht, hfuel => by
    have ht1 : t = 1 := by omega
    subst ht1
    rw [simpleDrain_succ, min_eq_left (by omega : (1 : Int) ≤ w)]
    have hval : (Int.toNat 1 + w.toNat - 1) / w.toNat = 1 := by
      have h1 : Int.toNat 1 + w.toNat - 1 = w.toNat := by omega
      rw [h1, Nat.div_self (by omega)]
    rw [hval]
    norm_num
  | fuel + 1, t, ht, hfuel => by
    rw [simpleDrain_succ]
    by_cases hle : t ≤ w
    · rw [min_eq_left hle]
      have hval : (t.toNat + w.toNat - 1) / w.toNat = 1 := by
        have h1 : 1 * w.toNat ≤ t.toNat + w.toNat - 1 := by omega
        have h2 : t.toNat + w.toNat - 1 < (1 + 1) * w.toNat := by omega
        exact Nat.div_eq_of_lt_le h1 h2
      rw [hval]
      norm_num
    · push_neg at hle
      rw [min_eq_right (le_of_lt hle)]
      have ht2 : (0 : Int) < t - w := by omega
      rw [if_pos ht2, simpleDrain_pos w hw fuel (t - w) ht2 (by omega)]
      simp only [Option.map_some']
      congr 1
      have ha : (t - w).toNat = t.toNat - w.toNat := by omega
      have hb : 1 ≤ w.toNat := by omega
      have hc : w.toNat < t.toNat := by omega
      rw [ha]
      have h1 : t.toNat - w.toNat + w.toNat - 1 =
          t.toNat - w.toNat - 1 + w.toNat := by omega
      have h2 : t.toNat + w.toNat - 1 = t.toNat - 1 + w.toNat := by omega
      have h3 : t.toNat - 1 = t.toNat - w.toNat - 1 + w.toNat := by omega
      rw [h1, h2, Nat.add_div_right _ (by omega), Nat.add_div_right _ (by omega),
        h3, Nat.add_div_right _ (by omega)]

theorem simpleCycleCountAux_all_empty (w : Int) (hw : 0 ≤ w) :
    ∀ (v : List Int) (prev : Int),
      (∀ i, i < v.length → deltaFrom prev v i = 0) →
      simpleCycleCountAux w prev v = some v.length
  | [], _, _ => rfl
  | x :: xs, prev, h => by
    have h0 : x - prev = 0 := by
      have := h 0 (by simp)
      rwa [deltaFrom_cons_zero] at this
    have htail : ∀ i, i < xs.length → deltaFrom x xs i = 0 := by
      intro i hi
      have := h (i + 1) (by simpa using Nat.succ_lt_succ hi)
      rwa [deltaFrom_cons_succ] at this
    have hrec := simpleCycleCountAux_all_empty w hw xs x htail
    show (match simpleDrain w ((x - prev).toNat + 1) (x - prev),
        simpleCycleCountAux w x xs with
      | some c, some r => some (c + r)
      | _, _ => none) = some (x :: xs).length
    rw [h0, hrec, Int.toNat_zero, simpleDrain_zero w hw]
    show some (1 + xs.length) = some (xs.length + 1)
    rw [Nat.add_comm]

/-- C2: for the Simple and the (currently identical) Fst policy, a block
whose rows are all empty costs one cycle per row (cycleCount = size, here
for every inputWidth >= 0 — the do-while body still runs once per row), and
a single row with nonzero count k > 0 under inputWidth w > 0 costs
ceil(k / w) = (k + w - 1) / w cycles. -/
theorem simple_fst_cycleCount_formulas :
    (∀ (v : List Int) (w : Int), 0 ≤ w →
      (∀ i, i < v.length → deltaOf v i = 0) →
      SimpleSpmvArchitecture.cycleCount v w = some v.length ∧
      FstSpmvArchitecture.cycleCount v w = some v.length) ∧
    (∀ k w : Int, 0 < k → 0 < w →
      SimpleSpmvArchitecture.cycleCount [k] w =
        some ((k.toNat + w.toNat - 1) / w.toNat) ∧
      FstSpmvArchitecture.cycleCount [k] w =
        some ((k.toNat + w.toNat - 1) / w.toNat)) := by
  constructor
  · intro v w hw hempty
    have hs : SimpleSpmvArchitecture.cycleCount v w = some v.length :=
      simpleCycleCountAux_all_empty w hw v 0 hempty
    exact ⟨hs, (fstCycleCountAux_eq_simple w v 0).trans hs⟩
  · intro k w hk hw
    have hdrain := simpleDrain_pos w hw k.toNat k hk (by omega)
    have hs : SimpleSpmvArchitecture.cycleCount [k] w =
        some ((k.toNat + w.toNat - 1) / w.toNat) := by
      show (match simpleDrain w ((k - 0).toNat + 1) (k - 0),
          simpleCycleCountAux w k [] with
        | some c, some r => some (c + r)
        | _, _ => none) = _
      simp only [sub_zero]
      rw [hdrain]
      show some ((k.toNat + w.toNat - 1) / w.toNat + 0) = _
      rw [Nat.add_zero]
    exact ⟨hs, (fstCycleCountAux_eq_simple w [k] 0).trans hs⟩

/-- Witness for C2: an all-empty 3-row block at inputWidth 4 costs 3
cycles; a single row of 5 nonzeros at inputWidth 2 costs ceil(5/2) = 3
cycles; under both policies. -/
theorem simple_fst_cycleCount_formulas_witness :
    (SimpleSpmvArchitecture.cycleCount [0, 0, 0] 4 =
        some ([0, 0, 0] : List Int).length ∧
      FstSpmvArchitecture.cycleCount [0, 0, 0] 4 =
        some ([0, 0, 0] : List Int).length) ∧
    (SimpleSpmvArchitecture.cycleCount [5] 2 =
        some (((5 : Int).toNat + (2 : Int).toNat - 1) / (2 : Int).toNat) ∧
      FstSpmvArchitecture.cycleCount [5] 2 =
        some (((5 : Int).toNat + (2 : Int).toNat - 1) / (2 : Int).toNat)) :=
  ⟨simple_fst_cycleCount_formulas.1 [0, 0, 0] 4 (by decide) (by decide),
   simple_fst_cycleCount_formulas.2 5 2 (by decide) (by decide)⟩

theorem tmod_bounds (x w : Int) (hw : 0 < w) :
    -w < Int.tmod x w ∧ Int.tmod x w < w := by
  match x, w with
  | Int.ofNat m, Int.ofNat n =>
    have h : Int.tmod (Int.ofNat m) (Int.ofNat n) = Int.ofNat (m % n) := rfl
    have hn : 0 < n := by
      simp only [Int.ofNat_eq_natCast] at hw
      exact_mod_cast hw
    have hlt := Nat.mod_lt m hn
    rw [h]
    simp only [Int.ofNat_eq_natCast]
    omega
  | Int.negSucc m, Int.ofNat n =>
    have h : Int.tmod (Int.negSucc m) (Int.ofNat n) =
        -Int.ofNat (m.succ % n) := rfl
    have hn : 0 < n := by
      simp only [Int.ofNat_eq_natCast] at hw
      exact_mod_cast hw
    have hlt := Nat.mod_lt m.succ hn
    rw [h]
    simp only [Int.ofNat_eq_natCast]
    omega
  | x, Int.negSucc n => exact absurd hw (by simp)

theorem tmod_eq_self_of_bounds (x w : Int) (h1 : -w < x) (h2 : x < w) :
    Int.tmod x w = x := by
  match x, w with
  | Int.ofNat m, Int.ofNat n =>
    have h : Int.tmod (Int.ofNat m) (Int.ofNat n) = Int.ofNat (m % n) := rfl
    have hmn : m < n := by
      simp only [Int.ofNat_eq_natCast] at h2
      exact_mod_cast h2
    rw [h, Nat.mod_eq_of_lt hmn]
  | Int.negSucc m, Int.ofNat n =>
    have h : Int.tmod (Int.negSucc m) (Int.ofNat n) =
        -Int.ofNat (m.succ % n) := rfl
    have hmn : m.succ < n := by
      simp only [Int.ofNat_eq_natCast, Int.negSucc_eq] at h1
      omega
    rw [h, Nat.mod_eq_of_lt hmn]
    simp [Int.negSucc_eq]
  | Int.ofNat m, Int.negSucc n =>
    exact absurd h2 (by simp only [Int.ofNat_eq_natCast, Int.negSucc_eq]; omega)
  | Int.negSucc m, Int.negSucc n =>
    exact absurd h1 (by simp only [Int.negSucc_eq]; omega)

theorem skipDrain_succ (w : Int) (fuel : Nat) (c t : Int) :
    skipDrain w (fuel + 1) c t =
      if 0 < t - min (w - c) t then
        (skipDrain w fuel (Int.tmod (c + min (w - c) t) w)
          (t - min (w - c) t)).map (fun p => (p.1 + 1, p.2))
      else some (1, Int.tmod (c + min (w - c) t) w) :=
  rfl

theorem skipDrain_crtPos_bounds (w : Int) (hw : 0 < w) :
    ∀ (fuel : Nat) (c t : Int) (n : Nat) (c2 : Int),
      skipDrain w fuel c t = some (n, c2) → -w < c2 ∧ c2 < w
  | 0, c, t, n, c2, h => absurd h (by simp [skipDrain])
  | fuel + 1, c, t, n, c2, h => by
    rw [skipDrain_succ] at h
    split at h
    · obtain ⟨⟨n2, c3⟩, hrec, heq⟩ := Option.map_eq_some'.mp h
      obtain ⟨-, rfl⟩ : n2 + 1 = n ∧ c3 = c2 := by
        simpa using heq
      exact skipDrain_crtPos_bounds w hw fuel _ _ n2 c3 hrec
    · obtain ⟨-, rfl⟩ : 1 = n ∧ Int.tmod (c + min (w - c) t) w = c2 := by
        simpa using h
      exact tmod_bounds _ w hw

theorem skipDrain_empty (w c : Int) (h1 : -w < c) (h2 : c < w)
    (fuel : Nat) :
    skipDrain w (fuel + 1) c 0 = some (1, c) := by
  rw [skipDrain_succ]
  have hmin : min (w - c) 0 = 0 := min_eq_right (by omega)
  rw [hmin]
  norm_num
  exact tmod_eq_self_of_bounds c w h1 h2

theorem skipCycleCountAux_cons (w x prev c pt : Int) (xs : List Int) :
    skipCycleCountAux w (x :: xs) prev c pt =
      if x - prev = 0 ∧ pt = 0 then skipCycleCountAux w xs x c pt
      else
        match skipDrain w ((x - prev).toNat + 1) c (x - prev) with
        | none => none
        | some (cy, c2) =>
          (skipCycleCountAux w xs x c2 (x - prev)).map
            (fun r => (if x - prev = 0 then 1 else 0) + cy + r) :=
  rfl

theorem skipChargesAux_cons (w x prev c pt : Int) (xs : List Int) :
    skipChargesAux w (x :: xs) prev c pt =
      if x - prev = 0 ∧ pt = 0 then
        (skipChargesAux w xs x c pt).map (fun cs => 0 :: cs)
      else
        match skipDrain w ((x - prev).toNat + 1) c (x - prev) with
        | none => none
        | some (cy, c2) =>
          (skipChargesAux w xs x c2 (x - prev)).map
            (fun cs => ((if x - prev = 0 then 1 else 0) + cy) :: cs) :=
  rfl

theorem skipCycleCountAux_eq_sum (w : Int) :
    ∀ (v : List Int) (prev c pt : Int),
      skipCycleCountAux w v prev c pt =
        (skipChargesAux w v prev c pt).map List.sum
  | [], _, _, _ => rfl
  | x :: xs, prev, c, pt => by
    rw [skipCycleCountAux_cons, skipChargesAux_cons]
    by_cases hcond : x - prev = 0 ∧ pt = 0
    · rw [if_pos hcond, if_pos hcond, skipCycleCountAux_eq_sum w xs x c pt]
      cases skipChargesAux w xs x c pt <;> simp
    · rw [if_neg hcond, if_neg hcond]
      cases hD : skipDrain w ((x - prev).toNat + 1) c (x - prev) with
      | none => rfl
      | some p =>
        obtain ⟨cy, c2⟩ := p
        show (skipCycleCountAux w xs x c2 (x - prev)).map
            (fun r => (if x - prev = 0 then 1 else 0) + cy + r) =
          ((skipChargesAux w xs x c2 (x - prev)).map
            (fun cs => ((if x - prev = 0 then 1 else 0) + cy) :: cs)).map
              List.sum
        rw [skipCycleCountAux_eq_sum w xs x c2 (x - prev)]
        cases skipChargesAux w xs x c2 (x - prev) <;>
          simp [Nat.add_assoc]

theorem skipChargesAux_length (w : Int) :
    ∀ (v : List Int) (prev c pt : Int) (cs : List Nat),
      skipChargesAux w v prev c pt = some cs → cs.length = v.length
  | [], _, _, _, cs, h => by
    obtain rfl : cs = [] := by simpa [skipChargesAux] using h.symm
    rfl
  | x :: xs, prev, c, pt, cs, h => by
    rw [skipChargesAux_cons] at h
    split at h
    · obtain ⟨cs2, hrec, heq⟩ := Option.map_eq_some'.mp h
      subst heq
      simpa using skipChargesAux_length w xs x c pt cs2 hrec
    · split at h
      · exact absurd h (by simp)
      · next cy c2 _ =>
        obtain ⟨cs2, hrec, heq⟩ := Option.map_eq_some'.mp h
        subst heq
        simpa using skipChargesAux_length w xs x c2 (x - prev) cs2 hrec

theorem skipChargesAux_head_zero (w y prev c pt : Int) (ys : List Int)
    (h0 : y - prev = 0) (hpt : pt = 0) (cs : List Nat)
    (h : skipChargesAux w (y :: ys) prev c pt = some cs) :
    cs.getD 0 0 = 0 := by
  rw [skipChargesAux_cons, if_pos ⟨h0, hpt⟩] at h
  obtain ⟨cs2, hrec, heq⟩ := Option.map_eq_some'.mp h
  subst heq
  rfl

theorem skipChargesAux_consec_empty (w : Int) :
    ∀ (v : List Int) (prev c pt : Int) (cs : List Nat),
      skipChargesAux w v prev c pt = some cs →
      ∀ i, i + 1 < v.length → deltaFrom prev v i = 0 →
        deltaFrom prev v (i + 1) = 0 → cs.getD (i + 1) 0 = 0
  | [], _, _, _, _, _, i, hi, _, _ => absurd hi (by simp)
  | x :: xs, prev, c, pt, cs, h, i, hi, hd0, hd1 => by
    rw [skipChargesAux_cons] at h
    cases i with
    | zero =>
      rw [deltaFrom_cons_zero] at hd0
      rw [deltaFrom_cons_succ] at hd1
      obtain ⟨y, ys, rfl⟩ : ∃ y ys, xs = y :: ys := by
        cases xs with
        | nil => exact absurd hi (by simp)
        | cons y ys => exact ⟨y, ys, rfl⟩
      rw [deltaFrom_cons_zero] at hd1
      by_cases hpt : pt = 0
      · rw [if_pos ⟨hd0, hpt⟩] at h
        obtain ⟨cs2, hrec, heq⟩ := Option.map_eq_some'.mp h
        subst heq
        exact skipChargesAux_head_zero w y x c pt ys hd1 hpt cs2 hrec
      · rw [if_neg (fun hh => hpt hh.2)] at h
        cases hD : skipDrain w ((x - prev).toNat + 1) c (x - prev) with
        | none =>
          rw [hD] at h
          exact absurd h (by simp)
        | some p =>
          obtain ⟨cy, c2⟩ := p
          rw [hD] at h
          obtain ⟨cs2, hrec, heq⟩ := Option.map_eq_some'.mp h
          subst heq
          exact skipChargesAux_head_zero w y x c2 (x - prev) ys hd1 hd0
            cs2 hrec
    | succ j =>
      rw [deltaFrom_cons_succ] at hd0 hd1
      have hij : j + 1 < xs.length := by
        simpa using Nat.lt_of_succ_lt_succ hi
      by_cases hcond : x - prev = 0 ∧ pt = 0
      · rw [if_pos hcond] at h
        obtain ⟨cs2, hrec, heq⟩ := Option.map_eq_some'.mp h
        subst heq
        exact skipChargesAux_consec_empty w xs x c pt cs2 hrec j hij hd0 hd1
      · rw [if_neg hcond] at h
        cases hD : skipDrain w ((x - prev).toNat + 1) c (x - prev) with
        | none =>
          rw [hD] at h
          exact absurd h (by simp)
        | some p =>
          obtain ⟨cy, c2⟩ := p
          rw [hD] at h
          obtain ⟨cs2, hrec, heq⟩ := Option.map_eq_some'.mp h
          subst heq
          exact skipChargesAux_consec_empty w xs x c2 (x - prev) cs2 hrec
            j hij hd0 hd1

theorem skipChargesAux_lone_empty (w : Int) (hw : 0 < w) :
    ∀ (v : List Int) (prev c pt : Int) (cs : List Nat),
      -w < c → c < w →
      skipChargesAux w v prev c pt = some cs →
      ∀ i, i < v.length → deltaFrom prev v i = 0 →
        ((i = 0 ∧ pt ≠ 0) ∨ ∃ j, i = j + 1 ∧ deltaFrom prev v j ≠ 0) →
        cs.getD i 0 = 2
  | [], _, _, _, _, _, _, _, i, hi, _, _ => absurd hi (by simp)
  | x :: xs, prev, c, pt, cs, hc1, hc2, h, i, hi, hd, hcond => by
    rw [skipChargesAux_cons] at h
    cases i with
    | zero =>
      have hpt : pt ≠ 0 := by
        rcases hcond with ⟨-, hpt⟩ | ⟨j, hj, -⟩
        · exact hpt
        · exact absurd hj (by omega)
      rw [deltaFrom_cons_zero] at hd
      rw [if_neg (fun hh => hpt hh.2), hd] at h
      rw [show (Int.toNat 0 + 1 : Nat) = 0 + 1 from rfl,
        skipDrain_empty w c hc1 hc2 0] at h
      obtain ⟨cs2, hrec, heq⟩ := Option.map_eq_some'.mp h
      subst heq
      simp
    | succ j =>
      rw [deltaFrom_cons_succ] at hd
      have hij : j < xs.length := by
        simpa using Nat.lt_of_succ_lt_succ hi
      by_cases hcnd : x - prev = 0 ∧ pt = 0
      · rw [if_pos hcnd] at h
        obtain ⟨cs2, hrec, heq⟩ := Option.map_eq_some'.mp h
        subst heq
        refine skipChargesAux_lone_empty w hw xs x c pt cs2 hc1 hc2 hrec
          j hij hd ?_
        rcases hcond with ⟨hj, -⟩ | ⟨j2, hj2, hdj⟩
        · exact absurd hj (by omega)
        · have hjj : j2 = j := by omega
          subst hjj
          cases j2 with
          | zero =>
            rw [deltaFrom_cons_zero] at hdj
            exact absurd hcnd.1 hdj
          | succ k =>
            rw [deltaFrom_cons_succ] at hdj
            exact Or.inr ⟨k, rfl, hdj⟩
      · rw [if_neg hcnd] at h
        cases hD : skipDrain w ((x - prev).toNat + 1) c (x - prev) with
        | none =>
          rw [hD] at h
          exact absurd h (by simp)
        | some p =>
          obtain ⟨cy, c2⟩ := p
          rw [hD] at h
          obtain ⟨cs2, hrec, heq⟩ := Option.map_eq_some'.mp h
          subst heq
          obtain ⟨hb1, hb2⟩ := skipDrain_crtPos_bounds w hw _ c (x - prev)
            cy c2 hD
          refine skipChargesAux_lone_empty w hw xs x c2 (x - prev) cs2
            hb1 hb2 hrec j hij hd ?_
          rcases hcond with ⟨hj, -⟩ | ⟨j2, hj2, hdj⟩
          · exact absurd hj (by omega)
          · have hjj : j2 = j := by omega
            subst hjj
            cases j2 with
            | zero =>
              rw [deltaFrom_cons_zero] at hdj
              exact Or.inl ⟨rfl, hdj⟩
            | succ k =>
              rw [deltaFrom_cons_succ] at hdj
              exact Or.inr ⟨k, rfl, hdj⟩

/-- C1 counterexample: the block [0, 0] consists of exactly two consecutive
empty rows.  SkipEmptyRowsArchitecture::cycleCount charges 2 cycles in
total for the pair, not 1: the first empty row costs the explicit
`cycles++` plus one mandatory do-while iteration (the per-row charges are
[2, 0]), and a lone first empty row ([0]) likewise costs 2 cycles, not 1. -/
theorem skipEmptyRows_pair_counterexample :
    SkipEmptyRowsArchitecture.cycleCount [0, 0] 4 = some 2 ∧
    skipCharges [0, 0] 4 = some [2, 0] ∧
    SkipEmptyRowsArchitecture.cycleCount [0, 0] 4 ≠ some 1 ∧
    SkipEmptyRowsArchitecture.cycleCount [0] 4 = some 2 := by
  decide

/-- C1 (amended): in SkipEmptyRowsArchitecture::cycleCount (inputWidth > 0),
the per-row charges cs (skipCharges; their sum is the returned cycle count
and there is one charge per row) satisfy: an empty row whose predecessor
row is also empty is charged 0 cycles, and an empty row whose predecessor
row is non-empty (or that is the first row) is charged exactly 2 cycles —
one bookkeeping cycle from `cycles++` plus one mandatory drain iteration.
Hence a pair of consecutive empty rows at the head of an empty run is
charged 2 cycles in total (2 on its first row, 0 on its second), not 1. -/
theorem skipEmptyRows_empty_row_charges (v : List Int) (w : Int)
    (cs : List Nat) (hw : 0 < w) (hcs : skipCharges v w = some cs) :
    SkipEmptyRowsArchitecture.cycleCount v w = some cs.sum ∧
    cs.length = v.length ∧
    (∀ i, i + 1 < v.length → deltaOf v i = 0 → deltaOf v (i + 1) = 0 →
      cs.getD (i + 1) 0 = 0) ∧
    (∀ i, i < v.length → deltaOf v i = 0 →
      (i = 0 ∨ deltaOf v (i - 1) ≠ 0) → cs.getD i 0 = 2) := by
  refine ⟨?_, skipChargesAux_length w v 0 0 (-1) cs hcs, ?_, ?_⟩
  · rw [SkipEmptyRowsArchitecture.cycleCount, skipCycleCountAux_eq_sum]
    rw [skipCharges] at hcs
    rw [hcs]
    rfl
  · intro i hi h0 h1
    exact skipChargesAux_consec_empty w v 0 0 (-1) cs hcs i hi h0 h1
  · intro i hi h0 hcond
    refine skipChargesAux_lone_empty w hw v 0 0 (-1) cs (by omega) (by omega)
      hcs i hi h0 ?_
    cases i with
    | zero => exact Or.inl ⟨rfl, by norm_num⟩
    | succ j =>
      rcases hcond with hj | hdj
      · exact absurd hj (by omega)
      · exact Or.inr ⟨j, rfl, by simpa using hdj⟩

/-- Witness for C1 (amended) on the block [3, 3, 3] (one full row then two
empty rows) at inputWidth 4: charges [1, 2, 0], total 3 cycles; row 1 (empty,
non-empty predecessor) is charged 2 and row 2 (empty, empty predecessor) is
charged 0. -/
theorem skipEmptyRows_empty_row_charges_witness :
    SkipEmptyRowsArchitecture.cycleCount [3, 3, 3] 4 =
      some ([1, 2, 0] : List Nat).sum ∧
    ([1, 2, 0] : List Nat).length = ([3, 3, 3] : List Int).length ∧
    (∀ i, i + 1 < ([3, 3, 3] : List Int).length → deltaOf [3, 3, 3] i = 0 →
      deltaOf [3, 3, 3] (i + 1) = 0 →
      ([1, 2, 0] : List Nat).getD (i + 1) 0 = 0) ∧
    (∀ i, i < ([3, 3, 3] : List Int).length → deltaOf [3, 3, 3] i = 0 →
      (i = 0 ∨ deltaOf [3, 3, 3] (i - 1) ≠ 0) →
      ([1, 2, 0] : List Nat).getD i 0 = 2) :=
  skipEmptyRows_empty_row_charges [3, 3, 3] 4 [1, 2, 0] (by decide) (by decide)

end Spmv
